import Mathlib

/-!
Verification of the `ucc` AQC compiler core (`src/ucc/aqc/mps_sequential.py`,
`src/ucc/aqc/utils.py`) against its natural-language specification.

The floating-point NumPy code is modelled over the exact reals `ℝ` and exact
complex numbers `ℂ`.  External third-party collaborators (the `quimb`
tensor-network library and qiskit's `partial_trace`/`entropy`) are not part of
this repository; the control flow of `Sequential.mps_to_circuit_approx` is
therefore modelled with the per-iteration MPS transformation abstracted as a
parameter, and the entanglement analysis is modelled on the entropy profile
that qiskit returns (the list of bipartite entropies for cut sizes
`1 .. n // 2`).
-/

namespace UCC

open Finset

/-! ## Entanglement-entropy regression
Model of `calculate_entanglement_entropy_slope` (src/ucc/aqc/utils.py, lines
20-42, and the identical inline regression in `entanglement_type`,
src/ucc/aqc/mps_sequential.py lines 67-91).  The input `es` is the entropy
profile `[S(1), ..., S(n // 2)]` produced by the external qiskit calls. -/

/-- `entropies[len(entropies) // 2:]` — the retained second half. -/
def retained (es : List ℝ) : List ℝ := es.drop (es.length / 2)

/-- `x = np.arange(1, len + 1); x_mean = np.mean(x)`.
`np.mean` of an empty array is modelled as `0/0 = 0`; it is only ever used
inside sums over the same (then empty) index range, so the two agree. -/
noncomputable def xMean (m : ℕ) : ℝ := (∑ i ∈ Finset.range m, ((i : ℝ) + 1)) / m

/-- `y_mean = np.mean(entropies)`. -/
noncomputable def yMean (l : List ℝ) : ℝ := l.sum / l.length

/-- `numerator = np.sum((x - x_mean) * (entropies - y_mean))`. -/
noncomputable def regNum (l : List ℝ) : ℝ :=
  ∑ i ∈ Finset.range l.length, (((i : ℝ) + 1) - xMean l.length) * (l.getD i 0 - yMean l)

/-- `denominator = np.sum((x - x_mean)**2)`. -/
noncomputable def regDen (l : List ℝ) : ℝ :=
  ∑ i ∈ Finset.range l.length, (((i : ℝ) + 1) - xMean l.length) ^ 2

/-- `slope = numerator / denominator if denominator != 0 else 0`
(src/ucc/aqc/utils.py line 40, src/ucc/aqc/mps_sequential.py line 87). -/
noncomputable def calculate_entanglement_entropy_slope (es : List ℝ) : ℝ :=
  if regDen (retained es) ≠ 0 then regNum (retained es) / regDen (retained es) else 0

/-- `entanglement_type` (src/ucc/aqc/mps_sequential.py lines 58-91):
`np.isclose(slope, 1, atol=0.1)` is `|slope - 1| ≤ atol + rtol * |1|` with the
NumPy default `rtol = 1e-5`, hence the threshold `1/10 + 1/100000`. -/
noncomputable def entanglement_type (es : List ℝ) : String :=
  if |calculate_entanglement_entropy_slope es - 1| ≤ 1 / 10 + 1 / 100000 then "volume"
  else "area"

/-- `n = int(np.ceil(np.log2(len(state))))`: for `len ≥ 1` this is
`Nat.clog 2 len`. -/
def num_qubits_of_len (len : ℕ) : ℕ := Nat.clog 2 len

/-! ## Layer generation: qubit index subsets
Model of the qubit bookkeeping of `Sequential.generate_layer`
(src/ucc/aqc/mps_sequential.py lines 117-159).  After the boundary reshapes,
the left dimension `d_left` of the site-`i` tensor is the left bond dimension
of site `i` (`1` at site `0`).  The code computes, per site,
`qubits = reversed(range(i - ceil(log2(d_left)), i + 1))` followed by
`[abs(q - num_sites + 1) for q in qubits]`, and visits sites from the last to
the first. -/

/-- `abs(q - num_sites + 1)` for one (possibly negative) index `q`. -/
def qmap (n : ℕ) (q : ℤ) : ℕ := (q - (n : ℤ) + 1).natAbs

/-- `[abs(q - n + 1) for q in reversed(range(i - c, i + 1))]` where
`c = ceil(log2(d_left))`; the reversed range is `[i, i - 1, ..., i - c]`. -/
def site_qubits (n i c : ℕ) : List ℕ :=
  (List.range (c + 1)).map (fun t : ℕ => qmap n ((i : ℤ) - (t : ℤ)))

/-- The list of qubit subsets of the layer generated from an `n`-site MPS
whose site-`i` tensor has left dimension `dleft i`; sites are visited from
`n - 1` down to `0` (the `reversed(mps.arrays)` loop). -/
def generate_layer_qubits (n : ℕ) (dleft : ℕ → ℕ) : List (List ℕ) :=
  ((List.range n).reverse).map (fun i => site_qubits n i (Nat.clog 2 (dleft i)))

/-- Left bond dimensions of the two-site bond-2 MPS of the Bell state
`[1,0,0,1]/sqrt 2`: site `0` has left dimension `1`, site `1` has left
dimension `2` (the maximal bond). -/
def dlBell : ℕ → ℕ := fun i => if i = 1 then 2 else 1

/-! ## The disentanglement loop of `Sequential.mps_to_circuit_approx`
(src/ucc/aqc/mps_sequential.py lines 161-281).  The per-iteration body (deep
copy, normalize, compress to bond 2 — external `quimb` — plus the
repository's `generate_layer`/`gram_schmidt`, the inverse-gate application
and the recompression to `chi_max`) is abstracted as a parameter `step`
mapping the current disentangled state to the next one together with the
generated layer, and the fidelity termination test
`fidelity >= target_fidelity` as `check : M → Bool` on the updated state.
For the control-flow claim the body is taken as a total function
`step : M → M × L` (its success assumed); for the error-path claim the
fallible variant `step : M → Option (M × L)` is used, where `none` models an
uncaught Python exception raised inside the body — e.g. the `ValueError`
that `generate_layer` line 129/132 raises when unpacking the tensor shape of
a 1-site MPS. -/

/-- The `for layer_index in range(max_num_layers)` loop: each iteration first
appends the generated layer, then breaks if the fidelity test passes. -/
def loopGo {M L : Type} (step : M → M × L) (check : M → Bool) :
    ℕ → M → List L → M × List L
  | 0, m, acc => (m, acc)
  | k + 1, m, acc =>
      if check (step m).1 then ((step m).1, acc ++ [(step m).2])
      else loopGo step check k (step m).1 (acc ++ [(step m).2])

/-- The list `unitary_layers` accumulated by the loop, in append order. -/
def layersRun {M L : Type} (step : M → M × L) (check : M → Bool)
    (max_num_layers : ℕ) (m0 : M) : List L :=
  (loopGo step check max_num_layers m0 []).2

/-- The disentangled state after `k` loop iterations. -/
def stAfter {M L : Type} (step : M → M × L) : ℕ → M → M
  | 0, m => m
  | k + 1, m => stAfter step k (step m).1

/-- The fallible loop: identical control flow to `loopGo`, but an exception
raised inside the iteration body (`step m = none` — e.g. `generate_layer`
failing on a 1-site MPS, or a `quimb` error) propagates and aborts the whole
call. -/
def loopGoE {M L : Type} (step : M → Option (M × L)) (check : M → Bool) :
    ℕ → M → List L → Option (M × List L)
  | 0, m, acc => some (m, acc)
  | k + 1, m, acc =>
      match step m with
      | none => none
      | some ml =>
          if check ml.1 then some (ml.1, acc ++ [ml.2])
          else loopGoE step check k ml.1 (acc ++ [ml.2])

/-- `Sequential.mps_to_circuit_approx`: build the MPS from the statevector
(`from_dense`, abstracted as the fallible `fromDense` — `none` models a
`quimb` exception, e.g. on a length that is not a power of two), preprocess
it (compression, canonicalization — `prep`), run the disentanglement loop
(whose body may itself raise, see `loopGoE`), and emit the recorded layers
in reverse order as the gate program.  There is no input validation of any
kind: the statevector is read only through `fromDense`, and the only failure
mode is a propagated low-level exception — never a fail-fast
`InvalidInputError` (no such error exists in the code). -/
def mps_to_circuit_approx {M L : Type} (fromDense : List ℂ → Option M)
    (prep : M → M) (step : M → Option (M × L)) (check : M → Bool)
    (statevector : List ℂ) (max_num_layers : ℕ) : Option (List L) :=
  (fromDense statevector).bind fun m =>
    (loopGoE step check max_num_layers (prep m) []).map fun r => r.2.reverse

/-! ## Fidelity expression of the termination test
(src/ucc/aqc/mps_sequential.py lines 203-252). -/

/-- `np.vdot(a, b)` — the inner product conjugating the FIRST argument. -/
def vdot (a b : List ℂ) : ℂ :=
  (List.zipWith (fun x y => (starRingEnd ℂ) x * y) a b).sum

/-- `zero_state = np.zeros((2**L,)); zero_state[0] = 1.0`. -/
def zero_state (n : ℕ) : List ℂ := (List.replicate n (0 : ℂ)).set 0 1

/-- The quantity the code actually computes and compares against
`target_fidelity`: `fidelity = np.vdot(disentangled_mps.to_dense(), zero_state)`
— a raw complex number, with no magnitude taken. -/
def fidelity_code (ψ : List ℂ) : ℂ := vdot ψ (zero_state ψ.length)

/-- The quantity the specification claims is computed: the magnitude
`|⟨disentangled | all-zero⟩|`. -/
noncomputable def fidelity_claimed (ψ : List ℂ) : ℝ :=
  Complex.abs (vdot ψ (zero_state ψ.length))

/-- Squared ℓ2 norm of a statevector, for stating (non-)normalization. -/
def sqnormL (l : List ℂ) : ℝ := (l.map Complex.normSq).sum

/-! ## Gram-Schmidt orthogonalization
Model of `gram_schmidt` (src/ucc/aqc/mps_sequential.py lines 9-55) over exact
complex vectors (`Fin d → ℂ`), with the NumPy random source modelled as an
explicit stream `rnd : ℕ → Fin d → ℂ` consumed one draw per fallback (each
real+imaginary `np.random.uniform` pair is one stream element).  A matrix is
its list of columns.  Norm-comparison tolerances are kept exactly as in the
code: `np.allclose(column, 0)` is the entrywise bound
`|column[i]| ≤ atol + rtol * 0 = 1e-8` (NumPy defaults `atol=1e-8`,
`rtol=1e-5`), and the residual retry fires when `np.linalg.norm < 1e-12`. -/

/-- NumPy's `allclose` default absolute tolerance `1e-8`. -/
noncomputable def eps8 : ℝ := 1 / 10 ^ 8

/-- The residual-degeneracy threshold `1e-12` of line 44. -/
noncomputable def eps12 : ℝ := 1 / 10 ^ 12

/-- `basis_vector.conj().T @ column` — inner product conjugating the first
argument. -/
noncomputable def cinner {d : ℕ} (x y : Fin d → ℂ) : ℂ :=
  ∑ i, (starRingEnd ℂ) (x i) * y i

/-- Squared Euclidean norm. -/
noncomputable def sqnormV {d : ℕ} (v : Fin d → ℂ) : ℝ := ∑ i, Complex.normSq (v i)

/-- `np.linalg.norm(column)`. -/
noncomputable def cnorm {d : ℕ} (v : Fin d → ℂ) : ℝ := Real.sqrt (sqnormV v)

/-- `column / np.linalg.norm(column)`. -/
noncomputable def normalizeV {d : ℕ} (v : Fin d → ℂ) : Fin d → ℂ :=
  fun i => v i / ((cnorm v : ℝ) : ℂ)

/-- `np.allclose(column, 0)`: every entry within absolute tolerance `1e-8`. -/
def isZeroish {d : ℕ} (v : Fin d → ℂ) : Prop := ∀ i, Complex.abs (v i) ≤ eps8

/-- The sequential projection loop
`for basis_vector in orthonormal_basis: column -= (basis_vector.conj().T @ column) * basis_vector`. -/
noncomputable def projectOut {d : ℕ} : List (Fin d → ℂ) → (Fin d → ℂ) → Fin d → ℂ
  | [], v => v
  | b :: l, v => projectOut l (v - cinner b v • b)

/-- State of the column loop: the accumulated `orthonormal_basis` and the
number of random draws consumed so far. -/
structure GSState (d : ℕ) where
  basis : List (Fin d → ℂ)
  k : ℕ

open Classical in
/-- Lines 33-36: replace an (approximately) zero column by a fresh random
draw. -/
noncomputable def gsDraw {d : ℕ} (rnd : ℕ → Fin d → ℂ) (st : GSState d)
    (col : Fin d → ℂ) : (Fin d → ℂ) × ℕ :=
  if isZeroish col then (rnd st.k, st.k + 1) else (col, st.k)

open Classical in
/-- Lines 38-50: project out the basis; if the residual norm falls below
`1e-12`, retry once with a fresh random draw projected against the same
basis.  Returns the vector that is about to be normalized, and the updated
draw counter. -/
noncomputable def gsResid {d : ℕ} (rnd : ℕ → Fin d → ℂ) (st : GSState d)
    (col : Fin d → ℂ) : (Fin d → ℂ) × ℕ :=
  if cnorm (projectOut st.basis (gsDraw rnd st col).1) < eps12 then
    (projectOut st.basis (rnd (gsDraw rnd st col).2), (gsDraw rnd st col).2 + 1)
  else (projectOut st.basis (gsDraw rnd st col).1, (gsDraw rnd st col).2)

/-- One iteration of the column loop: normalize the residual and append it
to the orthonormal basis (`unitary[:, j] = column / norm; basis.append`). -/
noncomputable def gsStep {d : ℕ} (rnd : ℕ → Fin d → ℂ) (st : GSState d)
    (col : Fin d → ℂ) : GSState d :=
  ⟨st.basis ++ [normalizeV (gsResid rnd st col).1], (gsResid rnd st col).2⟩

/-- The column loop over the remaining columns. -/
noncomputable def gsRunFrom {d : ℕ} (rnd : ℕ → Fin d → ℂ) :
    GSState d → List (Fin d → ℂ) → GSState d
  | st, [] => st
  | st, c :: cs => gsRunFrom rnd (gsStep rnd st c) cs

/-- `gram_schmidt(matrix)`: the returned unitary, as its list of columns
(the columns written into `unitary` are exactly the appended basis
vectors). -/
noncomputable def gram_schmidt {d : ℕ} (rnd : ℕ → Fin d → ℂ)
    (cols : List (Fin d → ℂ)) : List (Fin d → ℂ) :=
  (gsRunFrom rnd ⟨[], 0⟩ cols).basis

/-- Success of the random fallback: every vector that gets normalized is
nonzero.  For columns where no fallback fires this holds automatically
(their residual norm is ≥ 1e-12); the hypothesis only constrains the
random draws, and holds with probability 1 for a continuous source. -/
def ResidHyp {d : ℕ} (rnd : ℕ → Fin d → ℂ) :
    GSState d → List (Fin d → ℂ) → Prop
  | _, [] => True
  | st, c :: cs => (gsResid rnd st c).1 ≠ 0 ∧ ResidHyp rnd (gsStep rnd st c) cs

open Classical in
/-- The value the caller's matrix column holds after the call: the in-place
`column -= ...` subtractions write the projected residual back through the
NumPy view `matrix[:, j]`, except that a column replaced by the random
fallback (line 34 rebinds `column` to a fresh array first) is never
written. -/
noncomputable def gsMatCol {d : ℕ} (st : GSState d) (col : Fin d → ℂ) :
    Fin d → ℂ :=
  if isZeroish col then col else projectOut st.basis col

/-- The caller's matrix contents after `gram_schmidt` returns. -/
noncomputable def gsMatRun {d : ℕ} (rnd : ℕ → Fin d → ℂ) :
    GSState d → List (Fin d → ℂ) → List (Fin d → ℂ)
  | _, [] => []
  | st, c :: cs => gsMatCol st c :: gsMatRun rnd (gsStep rnd st c) cs

/-- Final contents of the input matrix (as a column list) after the call. -/
noncomputable def gsMatrix {d : ℕ} (rnd : ℕ → Fin d → ℂ)
    (cols : List (Fin d → ℂ)) : List (Fin d → ℂ) :=
  gsMatRun rnd ⟨[], 0⟩ cols

/-- Pairwise orthonormality of a list of vectors. -/
def ONBl {d : ℕ} : List (Fin d → ℂ) → Prop
  | [] => True
  | b :: l => cinner b b = 1 ∧ (∀ x ∈ l, cinner b x = 0 ∧ cinner x b = 0) ∧ ONBl l

/-- Concrete witness column `[1]`. -/
def wcol : Fin 1 → ℂ := fun _ => 1

/-- Concrete witness random stream (never consulted on the witness runs). -/
def wrnd : ℕ → Fin 1 → ℂ := fun _ _ => 0

/-- A second, different random stream, for randomness-independence. -/
def wrnd2 : ℕ → Fin 1 → ℂ := fun _ _ => 1

/-- A column with entry `1e-10`: inside `allclose`'s `1e-8` but far outside
the claimed `1e-12`. -/
noncomputable def tinyCol : Fin 1 → ℂ := fun _ => ((1 / 10 ^ 10 : ℝ) : ℂ)

/-! ## Helper lemmas for the regression -/

lemma sum_range_add_one (m : ℕ) :
    (∑ i ∈ Finset.range m, ((i : ℝ) + 1)) = m * (m + 1) / 2 := by
  induction m with
  | zero => simp
  | succ k ih =>
    rw [Finset.sum_range_succ, ih]
    push_cast
    ring

lemma xMean_eq (m : ℕ) (hm : 1 ≤ m) : xMean m = ((m : ℝ) + 1) / 2 := by
  have hm0 : (m : ℝ) ≠ 0 := Nat.cast_ne_zero.mpr (by omega)
  rw [xMean, sum_range_add_one]
  field_simp
  ring

lemma regDen_eq_zero_of_short (l : List ℝ) (h : l.length ≤ 1) : regDen l = 0 := by
  rw [regDen]
  interval_cases h' : l.length
  · simp
  · rw [Finset.sum_range_one, xMean_eq 1 le_rfl]
    norm_num

lemma regDen_pos_of_two_le (l : List ℝ) (h : 2 ≤ l.length) : 0 < regDen l := by
  rw [regDen]
  apply Finset.sum_pos' (fun i _ => sq_nonneg _)
  refine ⟨0, Finset.mem_range.mpr (by omega), ?_⟩
  rw [xMean_eq l.length (by omega)]
  have hne : (((0 : ℕ) : ℝ) + 1) - ((l.length : ℝ) + 1) / 2 ≠ 0 := by
    have h2 : (2 : ℝ) ≤ (l.length : ℝ) := by exact_mod_cast h
    intro hc
    have : ((l.length : ℝ) + 1) / 2 = 1 := by linarith
    have : (l.length : ℝ) = 1 := by linarith
    linarith
  exact lt_of_le_of_ne (sq_nonneg _) (Ne.symm (pow_ne_zero 2 hne))

/-- C7: in the slope computation, when the regression denominator (the
variance of the cut indices) is zero the returned slope is exactly `0`
rather than an error; and the denominator is zero exactly when the retained
second-half entropy sequence has at most one point, so this covers every
input producing such a degenerate regression. -/
theorem slope_zero_of_zero_denominator (es : List ℝ) :
    (regDen (retained es) = 0 ↔ (retained es).length ≤ 1) ∧
    (regDen (retained es) = 0 → calculate_entanglement_entropy_slope es = 0) := by
  constructor
  · constructor
    · intro h0
      by_contra hlen
      exact absurd h0 (ne_of_gt (regDen_pos_of_two_le _ (by omega)))
    · exact regDen_eq_zero_of_short _
  · intro h0
    rw [calculate_entanglement_entropy_slope, if_neg]
    simp [h0]

/-- Witness for C7 at the concrete entropy profile `[0, 0]`. -/
theorem slope_zero_of_zero_denominator_witness :
    regDen (retained [(0 : ℝ), 0]) = 0 ∧
      calculate_entanglement_entropy_slope [(0 : ℝ), 0] = 0 := by
  have h := slope_zero_of_zero_denominator [(0 : ℝ), 0]
  have hlen : (retained [(0 : ℝ), 0]).length ≤ 1 := by
    simp [retained]
  exact ⟨h.1.mpr hlen, h.2 (h.1.mpr hlen)⟩

/-- C8 (amended): `entanglement_type` returns `"volume"` exactly when the
fitted slope is within `0.1 + 1e-5` of `1.0` (the `np.isclose` condition with
the default relative tolerance), and `"area"` in every other case; the slope
is the ordinary-least-squares fit over the retained second half of the
entropy sequence. -/
theorem entanglement_type_characterization (es : List ℝ) :
    (entanglement_type es = "volume" ↔
      |calculate_entanglement_entropy_slope es - 1| ≤ 1 / 10 + 1 / 100000) ∧
    (entanglement_type es = "area" ↔
      ¬ |calculate_entanglement_entropy_slope es - 1| ≤ 1 / 10 + 1 / 100000) := by
  rw [entanglement_type]
  by_cases h : |calculate_entanglement_entropy_slope es - 1| ≤ 1 / 10 + 1 / 100000
  · rw [if_pos h]
    refine ⟨⟨fun _ => h, fun _ => rfl⟩, ⟨fun hs => ?_, fun hs => absurd h hs⟩⟩
    exact absurd hs (by decide)
  · rw [if_neg h]
    refine ⟨⟨fun hs => ?_, fun hs => absurd hs h⟩, ⟨fun _ => h, fun _ => rfl⟩⟩
    exact absurd hs (by decide)

/-- C8 counterexample: the entropy profile `[0, 0, 220001/200000]` (length 3,
so the retained second half is `[0, 220001/200000]` and the fitted slope is
`220001/200000`) is classified `"volume"` although the slope is NOT within
`0.1` of `1.0`: the code's threshold is `np.isclose`'s
`0.1 + 1e-5 = 0.10001`, not `0.1`. -/
theorem volume_threshold_cex :
    entanglement_type [0, 0, 220001 / 200000] = "volume" ∧
      ¬ |calculate_entanglement_entropy_slope [0, 0, 220001 / 200000] - 1| ≤ 1 / 10 := by
  have hret : retained [(0 : ℝ), 0, 220001 / 200000] = [0, 220001 / 200000] := by
    simp [retained]
  have hslope :
      calculate_entanglement_entropy_slope [0, 0, 220001 / 200000] = 220001 / 200000 := by
    rw [calculate_entanglement_entropy_slope, hret]
    have hden : regDen [(0 : ℝ), 220001 / 200000] = 1 / 2 := by
      rw [regDen]
      simp only [List.length_cons, List.length_nil]
      rw [Finset.sum_range_succ, Finset.sum_range_one, xMean_eq 2 (by omega)]
      norm_num
    have hnum : regNum [(0 : ℝ), 220001 / 200000] = 220001 / 400000 := by
      rw [regNum]
      simp only [List.length_cons, List.length_nil]
      rw [Finset.sum_range_succ, Finset.sum_range_one, xMean_eq 2 (by omega)]
      simp [yMean, List.getD]
      norm_num
    rw [hden, hnum, if_pos (by norm_num)]
    norm_num
  constructor
  · rw [entanglement_type, hslope, if_pos (by norm_num [abs_le])]
  · rw [hslope]
    norm_num [lt_abs]

/-- C10: for every statevector of length between 1 and 32 (at most 5 qubits),
the retained second-half entropy sequence has fewer than two points, the
regression denominator is zero, the slope is exactly `0`, and
`entanglement_type` returns `"area"`, regardless of the entropy values
(i.e. of how entangled the state actually is). -/
theorem small_state_area (len : ℕ) (es : List ℝ) (h1 : 1 ≤ len) (h2 : len ≤ 32)
    (hes : es.length = num_qubits_of_len len / 2) :
    (retained es).length < 2 ∧ regDen (retained es) = 0 ∧
      calculate_entanglement_entropy_slope es = 0 ∧ entanglement_type es = "area" := by
  have hclog : Nat.clog 2 len ≤ 5 :=
    (Nat.le_pow_iff_clog_le (by norm_num)).mp (by omega)
  have hlen : es.length ≤ 2 := by
    rw [hes, num_qubits_of_len]
    omega
  have hret : (retained es).length < 2 := by
    rw [retained, List.length_drop]
    omega
  have hden : regDen (retained es) = 0 := regDen_eq_zero_of_short _ (by omega)
  have hslope : calculate_entanglement_entropy_slope es = 0 := by
    rw [calculate_entanglement_entropy_slope, if_neg]
    simp [hden]
  refine ⟨hret, hden, hslope, ?_⟩
  rw [entanglement_type, hslope, if_neg (by norm_num)]

/-- Witness for C10 at `len = 32` (5 qubits) with entropy profile `[0, 0]`. -/
theorem small_state_area_witness :
    (1 ≤ 32 ∧ 32 ≤ 32 ∧ ([(0 : ℝ), 0]).length = num_qubits_of_len 32 / 2) ∧
      calculate_entanglement_entropy_slope [(0 : ℝ), 0] = 0 ∧
        entanglement_type [(0 : ℝ), 0] = "area" := by
  have hclog : Nat.clog 2 32 = 5 := by
    have ha : Nat.clog 2 32 ≤ 5 := (Nat.le_pow_iff_clog_le (by norm_num)).mp (by norm_num)
    have hb : ¬ Nat.clog 2 32 ≤ 4 := by
      rw [← Nat.le_pow_iff_clog_le (by norm_num)]
      norm_num
    omega
  have hes : ([(0 : ℝ), 0]).length = num_qubits_of_len 32 / 2 := by
    simp [num_qubits_of_len, hclog]
  have h := small_state_area 32 [(0 : ℝ), 0] (by norm_num) (by norm_num) hes
  exact ⟨⟨by norm_num, by norm_num, hes⟩, h.2.2.1, h.2.2.2⟩

/-! ## C2: layer qubit subsets -/

lemma clog_two_two : Nat.clog 2 2 = 1 := by
  have ha : Nat.clog 2 2 ≤ 1 := (Nat.le_pow_iff_clog_le (by norm_num)).mp (by norm_num)
  have hb : ¬ Nat.clog 2 2 ≤ 0 := by
    rw [← Nat.le_pow_iff_clog_le (by norm_num)]
    norm_num
  omega

/-- C2 counterexample: for the two-site bond-2 MPS of the Bell state the
generated layer has qubit subsets `[[0, 1], [1]]` — their union covers the
register, but qubit `1` appears in both gates' subsets, so the subsets do NOT
partition the register. -/
theorem layer_qubits_overlap :
    generate_layer_qubits 2 dlBell = [[0, 1], [1]] ∧
      1 ∈ (generate_layer_qubits 2 dlBell).getD 0 [] ∧
      1 ∈ (generate_layer_qubits 2 dlBell).getD 1 [] := by
  have hrw : generate_layer_qubits 2 dlBell = [site_qubits 2 1 1, site_qubits 2 0 0] := by
    rw [generate_layer_qubits]
    norm_num [List.range_succ, dlBell, clog_two_two, Nat.clog_one_right]
  rw [hrw]
  refine ⟨by decide, by decide, by decide⟩

/-- C2 (amended): for every layer produced by `generate_layer` from a
bond-≤2 MPS on `n ≥ 2` sites, the union of the gates' qubit subsets covers
the whole `n`-qubit register (each site-`i` gate contains qubit `n - 1 - i`);
the subsets are however not always pairwise disjoint — a site with left bond
`2` shares a qubit with the neighbouring gate. -/
theorem layer_qubits_cover (n : ℕ) (dleft : ℕ → ℕ) (hn : 2 ≤ n)
    (h0 : dleft 0 = 1) (hb : ∀ i, i < n → dleft i = 1 ∨ dleft i = 2) :
    ∀ q, q < n → ∃ l ∈ generate_layer_qubits n dleft, q ∈ l := by
  intro q hq
  refine ⟨site_qubits n (n - 1 - q) (Nat.clog 2 (dleft (n - 1 - q))), ?_, ?_⟩
  · rw [generate_layer_qubits]
    exact List.mem_map.mpr
      ⟨n - 1 - q, List.mem_reverse.mpr (List.mem_range.mpr (by omega)), rfl⟩
  · rw [site_qubits]
    have h0 : 0 ∈ List.range (Nat.clog 2 (dleft (n - 1 - q)) + 1) :=
      List.mem_range.mpr (by omega)
    have hmem := List.mem_map_of_mem
      (fun t : ℕ => qmap n (((n - 1 - q : ℕ) : ℤ) - (t : ℤ))) h0
    have hval : (fun t : ℕ => qmap n (((n - 1 - q : ℕ) : ℤ) - (t : ℤ))) 0 = q := by
      show qmap n (((n - 1 - q : ℕ) : ℤ) - ((0 : ℕ) : ℤ)) = q
      rw [qmap]
      omega
    rwa [hval] at hmem

/-- Witness for C2 (amended) on the Bell-state layer, covering qubit `0`. -/
theorem layer_qubits_cover_witness :
    (2 ≤ 2 ∧ dlBell 0 = 1 ∧ (∀ i, i < 2 → dlBell i = 1 ∨ dlBell i = 2)) ∧
      ∃ l ∈ generate_layer_qubits 2 dlBell, 0 ∈ l :=
  ⟨⟨by norm_num, rfl, by decide⟩,
    layer_qubits_cover 2 dlBell (by norm_num) rfl (by decide) 0 (by norm_num)⟩

/-! ## C4/C5: the disentanglement loop -/

lemma loopGo_append {M L : Type} (step : M → M × L) (check : M → Bool) :
    ∀ (k : ℕ) (m : M) (acc : List L),
      loopGo step check k m acc =
        ((loopGo step check k m []).1, acc ++ (loopGo step check k m []).2) := by
  intro k
  induction k with
  | zero => intro m acc; simp [loopGo]
  | succ n ih =>
    intro m acc
    by_cases h : check (step m).1 = true
    · rw [loopGo, if_pos h, loopGo, if_pos h]
      simp
    · rw [loopGo, if_neg h, loopGo, if_neg h,
        ih (step m).1 (acc ++ [(step m).2]), ih (step m).1 ([] ++ [(step m).2])]
      simp

lemma check_eq_false_of_not {b : Bool} (h : ¬ b = true) : b = false := by
  cases hb : b
  · rfl
  · exact absurd hb h

lemma loopGo_spec {M L : Type} (step : M → M × L) (check : M → Bool) :
    ∀ (k : ℕ) (m : M),
      (loopGo step check k m []).2.length ≤ k ∧
      (1 ≤ k → 1 ≤ (loopGo step check k m []).2.length) ∧
      (∀ j, j + 1 < (loopGo step check k m []).2.length →
        check (stAfter step (j + 1) m) = false) ∧
      ((loopGo step check k m []).2.length < k →
        check (stAfter step ((loopGo step check k m []).2.length) m) = true) := by
  intro k
  induction k with
  | zero => intro m; simp [loopGo]
  | succ n ih =>
    intro m
    by_cases h : check (step m).1 = true
    · have hres : (loopGo step check (n + 1) m []).2 = [(step m).2] := by
        rw [loopGo, if_pos h]
        rfl
      rw [hres]
      refine ⟨by simp, fun _ => by simp, fun j hj => by simp at hj, fun _ => ?_⟩
      show check (stAfter step 0 (step m).1) = true
      exact h
    · obtain ⟨ih1, ih2, ih3, ih4⟩ := ih (step m).1
      have hres : (loopGo step check (n + 1) m []).2 =
          (step m).2 :: (loopGo step check n (step m).1 []).2 := by
        rw [loopGo, if_neg h, loopGo_append step check n (step m).1 ([] ++ [(step m).2])]
        simp
      rw [hres]
      refine ⟨by simp; omega, fun _ => by simp, fun j hj => ?_, fun hlt => ?_⟩
      · show check (stAfter step j (step m).1) = false
        match j with
        | 0 => exact check_eq_false_of_not h
        | j' + 1 =>
          exact ih3 j' (by simp at hj; omega)
      · simp only [List.length_cons] at hlt
        have hlt2 : (loopGo step check n (step m).1 []).2.length < n := by omega
        have := ih4 hlt2
        simp only [List.length_cons]
        show check (stAfter step ((loopGo step check n (step m).1 []).2.length) (step m).1)
          = true
        exact this

/-- C4: the disentanglement loop terminates after at most `max_num_layers`
iterations; it stops early exactly when the fidelity test first passes (the
test is `false` after every earlier iteration, and if the loop stopped before
exhausting the counter the test passed on the final state); consequently the
recorded layer list has between `1` and `max_num_layers` entries whenever
`max_num_layers ≥ 1`. -/
theorem disentangle_loop_spec {M L : Type} (step : M → M × L) (check : M → Bool)
    (max_num_layers : ℕ) (m0 : M) (h : 1 ≤ max_num_layers) :
    1 ≤ (layersRun step check max_num_layers m0).length ∧
    (layersRun step check max_num_layers m0).length ≤ max_num_layers ∧
    (∀ j, j + 1 < (layersRun step check max_num_layers m0).length →
      check (stAfter step (j + 1) m0) = false) ∧
    ((layersRun step check max_num_layers m0).length < max_num_layers →
      check (stAfter step ((layersRun step check max_num_layers m0).length) m0) = true) := by
  obtain ⟨h1, h2, h3, h4⟩ := loopGo_spec step check max_num_layers m0
  exact ⟨h2 h, h1, h3, h4⟩

/-- Witness for C4 on a concrete three-iteration run over `ℕ` states. -/
theorem disentangle_loop_spec_witness :
    (1 ≤ 3) ∧
      1 ≤ (layersRun (fun m : ℕ => (m + 1, m)) (fun m => decide (2 ≤ m)) 3 0).length ∧
      (layersRun (fun m : ℕ => (m + 1, m)) (fun m => decide (2 ≤ m)) 3 0).length ≤ 3 := by
  have h := disentangle_loop_spec (fun m : ℕ => (m + 1, m)) (fun m => decide (2 ≤ m))
    3 0 (by norm_num)
  exact ⟨by norm_num, h.1, h.2.1⟩

lemma loopGoE_acc_le {M L : Type} (step : M → Option (M × L)) (check : M → Bool) :
    ∀ (k : ℕ) (m : M) (acc : List L) (m2 : M) (out : List L),
      loopGoE step check k m acc = some (m2, out) → acc.length ≤ out.length := by
  intro k
  induction k with
  | zero =>
    intro m acc m2 out h
    simp only [loopGoE, Option.some.injEq, Prod.mk.injEq] at h
    rw [h.2]
  | succ n ih =>
    intro m acc m2 out h
    simp only [loopGoE] at h
    match hs : step m with
    | none => rw [hs] at h; simp at h
    | some ml =>
      rw [hs] at h
      simp only at h
      by_cases hc : check ml.1 = true
      · rw [if_pos hc] at h
        simp only [Option.some.injEq, Prod.mk.injEq] at h
        rw [← h.2]
        simp
      · rw [if_neg hc] at h
        have := ih ml.1 (acc ++ [ml.2]) m2 out h
        simp only [List.length_append, List.length_cons, List.length_nil] at this
        omega

lemma loopGoE_one_le {M L : Type} (step : M → Option (M × L)) (check : M → Bool)
    (k : ℕ) (m m2 : M) (out : List L) (hk : 1 ≤ k)
    (h : loopGoE step check k m [] = some (m2, out)) : 1 ≤ out.length := by
  match k with
  | n + 1 =>
    simp only [loopGoE] at h
    match hs : step m with
    | none => rw [hs] at h; simp at h
    | some ml =>
      rw [hs] at h
      simp only at h
      by_cases hc : check ml.1 = true
      · rw [if_pos hc] at h
        simp only [Option.some.injEq, Prod.mk.injEq] at h
        rw [← h.2]
        simp
      · rw [if_neg hc] at h
        have := loopGoE_acc_le step check n ml.1 ([] ++ [ml.2]) m2 out h
        simp only [List.nil_append, List.length_cons, List.length_nil] at this
        omega

/-- C5 counterexample: the non-normalized two-qubit statevector
`[2, 0, 0, 0]` (squared norm `4 ≠ 1`; on two sites `generate_layer` succeeds,
and `left_canonicalize(normalize=True)` silently renormalizes) is accepted
without any validation — `mps_to_circuit_approx` produces a gate program
instead of raising an `InvalidInputError` (no such error exists anywhere in
the implementation).  Shown on a concrete instantiation of the collaborators
matching that everywhere-succeeding trace. -/
theorem no_input_validation_cex :
    sqnormL [2, 0, 0, 0] ≠ 1 ∧
      mps_to_circuit_approx (fun l => some l.length) id
        (fun m : ℕ => some (m, m)) (fun _ => true) [2, 0, 0, 0] 5 = some [4] := by
  constructor
  · have h4 : sqnormL [2, 0, 0, 0] = 4 := by
      simp [sqnormL, Complex.normSq_apply]
      norm_num
    rw [h4]
    norm_num
  · rfl

/-- C5 (amended): the implementation never fails fast on malformed input —
it performs no validation at all.  The statevector is read only through the
MPS construction `fromDense` (so no validation branch can exist), and for
`max_num_layers ≥ 1` the outcome is either a propagated low-level exception
from the collaborators (`none`, e.g. `quimb` on a non-power-of-two length,
or `generate_layer`'s shape `ValueError` on a 1-site MPS) or a NON-EMPTY
gate program — never an `InvalidInputError`, which does not exist in the
code, and in particular a silently produced program on inputs where every
collaborator succeeds (e.g. non-normalized statevectors on ≥ 2 qubits). -/
theorem no_input_validation {M L : Type} (fromDense : List ℂ → Option M)
    (prep : M → M) (step : M → Option (M × L)) (check : M → Bool)
    (statevector : List ℂ) (max_num_layers : ℕ) (h : 1 ≤ max_num_layers) :
    ((mps_to_circuit_approx fromDense prep step check statevector max_num_layers
        = none) ∨
      (∃ p, mps_to_circuit_approx fromDense prep step check statevector
          max_num_layers = some p ∧ 1 ≤ p.length)) ∧
    (∀ sv2 : List ℂ, fromDense sv2 = fromDense statevector →
      mps_to_circuit_approx fromDense prep step check sv2 max_num_layers =
        mps_to_circuit_approx fromDense prep step check statevector
          max_num_layers) := by
  constructor
  · rw [mps_to_circuit_approx]
    match hf : fromDense statevector with
    | none =>
      left
      rfl
    | some m =>
      simp only [Option.some_bind]
      match hl : loopGoE step check max_num_layers (prep m) [] with
      | none =>
        left
        rfl
      | some r =>
        right
        refine ⟨r.2.reverse, rfl, ?_⟩
        rw [List.length_reverse]
        exact loopGoE_one_le step check max_num_layers (prep m) r.1 r.2 h
          (by rw [hl])
  · intro sv2 hsv
    rw [mps_to_circuit_approx, mps_to_circuit_approx, hsv]

/-- Witness for C5 (amended) on the non-normalized input `[2, 0, 0, 0]`. -/
theorem no_input_validation_witness :
    (1 ≤ 5) ∧
      ((mps_to_circuit_approx (fun l : List ℂ => some l.length) id
          (fun m : ℕ => some (m, m)) (fun _ => true) [2, 0, 0, 0] 5 = none) ∨
        (∃ p, mps_to_circuit_approx (fun l : List ℂ => some l.length) id
            (fun m : ℕ => some (m, m)) (fun _ => true) [2, 0, 0, 0] 5 = some p ∧
          1 ≤ p.length)) := by
  have h := no_input_validation (fun l : List ℂ => some l.length) id
    (fun m : ℕ => some (m, m)) (fun _ => true) [2, 0, 0, 0] 5 (by norm_num)
  exact ⟨by norm_num, h.1⟩

/-! ## C1: the fidelity used by the termination test -/

lemma vdot_replicate_zero (l : List ℂ) (k : ℕ) :
    (List.zipWith (fun x y => (starRingEnd ℂ) x * y) l (List.replicate k (0 : ℂ))).sum
      = 0 := by
  induction l generalizing k with
  | nil => simp
  | cons a t ih =>
    match k with
    | 0 => simp
    | k + 1 =>
      simp only [List.replicate_succ, List.zipWith_cons_cons, List.sum_cons, mul_zero, ih,
        zero_add]

/-- C1 counterexample: for the (normalized, reachable) dense vector
`[-1, 0]` — the one-qubit state `-|0⟩` — the code's fidelity is the raw
inner product `np.vdot(ψ, e₀) = conj ψ₀ = -1`, while the magnitude
`|⟨ψ|0⟩|` claimed by the specification equals `1`; the two differ, so the
quantity compared against `target_fidelity` is not the magnitude. -/
theorem fidelity_not_magnitude :
    fidelity_code [-1, 0] = -1 ∧ fidelity_claimed [-1, 0] = 1 ∧
      fidelity_code [-1, 0] ≠ ((fidelity_claimed [-1, 0] : ℝ) : ℂ) := by
  have hz : zero_state 2 = [1, 0] := by
    simp [zero_state, List.replicate]
  have h1 : fidelity_code [-1, 0] = -1 := by
    rw [fidelity_code]
    simp only [List.length_cons, List.length_nil]
    rw [hz]
    simp [vdot]
  have h2 : fidelity_claimed [-1, 0] = 1 := by
    rw [fidelity_claimed]
    simp only [List.length_cons, List.length_nil]
    rw [hz]
    simp [vdot]
  refine ⟨h1, h2, ?_⟩
  rw [h1, h2]
  norm_num

/-- C1 (amended): in every iteration the fidelity used for the termination
test is the raw complex inner product `np.vdot(disentangled_dense, zero_state)`
— equal to the complex conjugate of the all-zero amplitude `ψ₀` — compared
directly against `target_fidelity` with no magnitude (or real part) taken. -/
theorem fidelity_code_eq_conj_head (L : ℕ) (ψ : List ℂ) (h : ψ.length = 2 ^ L) :
    fidelity_code ψ = (starRingEnd ℂ) ψ.headI := by
  match ψ with
  | [] =>
    exfalso
    have := Nat.one_le_two_pow (n := L)
    simp at h
    omega
  | a :: t =>
    rw [fidelity_code]
    have hz : zero_state (a :: t).length = 1 :: List.replicate t.length (0 : ℂ) := by
      simp [zero_state, List.replicate_succ]
    rw [hz]
    simp only [vdot, List.zipWith_cons_cons, List.sum_cons, mul_one, List.headI]
    rw [vdot_replicate_zero]
    ring

/-- Witness for C1 (amended) at the dense vector `[1, 0]` (`L = 1`). -/
theorem fidelity_code_eq_conj_head_witness :
    ([(1 : ℂ), 0].length = 2 ^ 1) ∧
      fidelity_code [(1 : ℂ), 0] = (starRingEnd ℂ) ([(1 : ℂ), 0].headI) :=
  ⟨rfl, fidelity_code_eq_conj_head 1 [(1 : ℂ), 0] rfl⟩

/-! ## C3/C6/C9: Gram-Schmidt lemmas -/

lemma cinner_sub_right {d : ℕ} (x y z : Fin d → ℂ) :
    cinner x (y - z) = cinner x y - cinner x z := by
  simp [cinner, Pi.sub_apply, mul_sub, Finset.sum_sub_distrib]

lemma cinner_smul_right {d : ℕ} (x y : Fin d → ℂ) (a : ℂ) :
    cinner x (a • y) = a * cinner x y := by
  rw [cinner, cinner, Finset.mul_sum]
  refine Finset.sum_congr rfl fun i _ => ?_
  simp only [Pi.smul_apply, smul_eq_mul]
  ring

lemma cinner_conj_symm {d : ℕ} (x y : Fin d → ℂ) :
    (starRingEnd ℂ) (cinner x y) = cinner y x := by
  rw [cinner, cinner, map_sum]
  refine Finset.sum_congr rfl fun i _ => ?_
  simp only [map_mul, Complex.conj_conj]
  ring

lemma sqnormV_nonneg {d : ℕ} (v : Fin d → ℂ) : 0 ≤ sqnormV v :=
  Finset.sum_nonneg fun _ _ => Complex.normSq_nonneg _

lemma cinner_self {d : ℕ} (v : Fin d → ℂ) : cinner v v = ((sqnormV v : ℝ) : ℂ) := by
  rw [cinner, sqnormV]
  push_cast
  refine Finset.sum_congr rfl fun i _ => ?_
  rw [mul_comm, Complex.mul_conj]

lemma sqnormV_pos {d : ℕ} (v : Fin d → ℂ) (h : v ≠ 0) : 0 < sqnormV v := by
  obtain ⟨i, hi⟩ := Function.ne_iff.mp h
  refine Finset.sum_pos' (fun j _ => Complex.normSq_nonneg _)
    ⟨i, Finset.mem_univ i, Complex.normSq_pos.mpr (by simpa using hi)⟩

lemma cnorm_pos {d : ℕ} (v : Fin d → ℂ) (h : v ≠ 0) : 0 < cnorm v :=
  Real.sqrt_pos.mpr (sqnormV_pos v h)

lemma cnorm_sq {d : ℕ} (v : Fin d → ℂ) : cnorm v * cnorm v = sqnormV v := by
  rw [cnorm]
  exact Real.mul_self_sqrt (sqnormV_nonneg v)

lemma cinner_normalizeV_right {d : ℕ} (b v : Fin d → ℂ) :
    cinner b (normalizeV v) = cinner b v / ((cnorm v : ℝ) : ℂ) := by
  rw [cinner, cinner, Finset.sum_div]
  refine Finset.sum_congr rfl fun i _ => ?_
  simp only [normalizeV]
  ring

lemma cinner_normalizeV_self {d : ℕ} (v : Fin d → ℂ) (h : v ≠ 0) :
    cinner (normalizeV v) (normalizeV v) = 1 := by
  have hstep : cinner (normalizeV v) (normalizeV v)
      = cinner v v / (((cnorm v : ℝ) : ℂ) * ((cnorm v : ℝ) : ℂ)) := by
    rw [cinner, cinner, Finset.sum_div]
    refine Finset.sum_congr rfl fun i _ => ?_
    simp only [normalizeV, map_div₀, Complex.conj_ofReal]
    ring
  rw [hstep, cinner_self, ← Complex.ofReal_mul, cnorm_sq]
  exact div_self (Complex.ofReal_ne_zero.mpr (ne_of_gt (sqnormV_pos v h)))

lemma cinner_projectOut_fix {d : ℕ} :
    ∀ (l : List (Fin d → ℂ)) (u : Fin d → ℂ), (∀ b ∈ l, cinner u b = 0) →
      ∀ v, cinner u (projectOut l v) = cinner u v := by
  intro l
  induction l with
  | nil => intro u _ v; rfl
  | cons b l ih =>
    intro u h v
    simp only [projectOut]
    rw [ih u (fun x hx => h x (List.mem_cons_of_mem b hx)),
      cinner_sub_right, cinner_smul_right, h b (List.mem_cons_self b l), mul_zero, sub_zero]

lemma projectOut_orth {d : ℕ} :
    ∀ (l : List (Fin d → ℂ)), ONBl l → ∀ (v : Fin d → ℂ), ∀ b ∈ l,
      cinner b (projectOut l v) = 0 := by
  intro l
  induction l with
  | nil => intro _ v b hb; cases hb
  | cons b0 l ih =>
    rintro ⟨hbb, hbl, hl'⟩ v b hb
    simp only [projectOut]
    rcases List.mem_cons.mp hb with rfl | hb2
    · rw [cinner_projectOut_fix l b (fun x hx => (hbl x hx).1),
        cinner_sub_right, cinner_smul_right, hbb, mul_one, sub_self]
    · exact ih hl' _ b hb2

lemma projectOut_sub_mem_span {d : ℕ} :
    ∀ (l : List (Fin d → ℂ)) (v : Fin d → ℂ),
      projectOut l v - v ∈ Submodule.span ℂ {x | x ∈ l} := by
  intro l
  induction l with
  | nil =>
    intro v
    simp only [projectOut, sub_self]
    exact Submodule.zero_mem _
  | cons b l ih =>
    intro v
    simp only [projectOut]
    have h2 : projectOut l (v - cinner b v • b) - v
        = (projectOut l (v - cinner b v • b) - (v - cinner b v • b))
          + (-(cinner b v • b)) := by
      abel
    rw [h2]
    refine Submodule.add_mem _ ?_ ?_
    · exact Submodule.span_mono (fun x hx => List.mem_cons_of_mem b hx)
        (ih (v - cinner b v • b))
    · exact Submodule.neg_mem _
        (Submodule.smul_mem _ _ (Submodule.subset_span (List.mem_cons_self b l)))

lemma projectOut_of_orth {d : ℕ} :
    ∀ (l : List (Fin d → ℂ)) (v : Fin d → ℂ), (∀ b ∈ l, cinner b v = 0) →
      projectOut l v = v := by
  intro l
  induction l with
  | nil => intro v _; rfl
  | cons b l ih =>
    intro v h
    simp only [projectOut]
    rw [h b (List.mem_cons_self b l), zero_smul, sub_zero]
    exact ih v (fun x hx => h x (List.mem_cons_of_mem b hx))

lemma ONBl_append {d : ℕ} :
    ∀ (l : List (Fin d → ℂ)) (u : Fin d → ℂ), ONBl l → cinner u u = 1 →
      (∀ b ∈ l, cinner b u = 0 ∧ cinner u b = 0) → ONBl (l ++ [u]) := by
  intro l
  induction l with
  | nil =>
    intro u _ hu _
    simp only [List.nil_append]
    refine ⟨hu, ?_, trivial⟩
    intro x hx
    exact absurd hx (List.not_mem_nil x)
  | cons b l ih =>
    intro u hl hu ho
    obtain ⟨hbb, hbl, hl'⟩ := hl
    simp only [List.cons_append]
    refine ⟨hbb, ?_, ih u hl' hu (fun x hx => ho x (List.mem_cons_of_mem b hx))⟩
    intro x hx
    rcases List.mem_append.mp hx with hx1 | hx2
    · exact hbl x hx1
    · have hxu : x = u := by simpa using hx2
      subst hxu
      exact ho b (List.mem_cons_self b l)

lemma ONBl_get {d : ℕ} :
    ∀ (l : List (Fin d → ℂ)), ONBl l →
      ∀ i j (hi : i < l.length) (hj : j < l.length),
        cinner (l.get ⟨i, hi⟩) (l.get ⟨j, hj⟩) = if i = j then 1 else 0 := by
  intro l
  induction l with
  | nil => intro _ i j hi _; simp at hi
  | cons b l ih =>
    rintro ⟨hbb, hbl, hl'⟩ i j hi hj
    match i, j with
    | 0, 0 => simpa using hbb
    | 0, j + 1 =>
      have hj' : j < l.length := by simpa using hj
      show cinner b (l.get ⟨j, hj'⟩) = if 0 = j + 1 then 1 else 0
      rw [if_neg (by omega)]
      exact (hbl _ (l.get_mem j hj')).1
    | i + 1, 0 =>
      have hi' : i < l.length := by simpa using hi
      show cinner (l.get ⟨i, hi'⟩) b = if i + 1 = 0 then 1 else 0
      rw [if_neg (by omega)]
      exact (hbl _ (l.get_mem i hi')).2
    | i + 1, j + 1 =>
      have hi' : i < l.length := by simpa using hi
      have hj' : j < l.length := by simpa using hj
      have hiff : (i + 1 = j + 1) ↔ (i = j) := by omega
      show cinner (l.get ⟨i, hi'⟩) (l.get ⟨j, hj'⟩) = if i + 1 = j + 1 then 1 else 0
      rw [if_congr hiff rfl rfl]
      exact ih hl' i j hi' hj'

lemma gsResid_proj {d : ℕ} (rnd : ℕ → Fin d → ℂ) (st : GSState d) (col : Fin d → ℂ) :
    ∃ w, (gsResid rnd st col).1 = projectOut st.basis w := by
  unfold gsResid
  split_ifs
  · exact ⟨rnd (gsDraw rnd st col).2, rfl⟩
  · exact ⟨(gsDraw rnd st col).1, rfl⟩

lemma gsRunFrom_basis_length {d : ℕ} (rnd : ℕ → Fin d → ℂ) :
    ∀ (cols : List (Fin d → ℂ)) (st : GSState d),
      (gsRunFrom rnd st cols).basis.length = st.basis.length + cols.length := by
  intro cols
  induction cols with
  | nil => intro st; simp [gsRunFrom]
  | cons c cs ih =>
    intro st
    simp only [gsRunFrom]
    rw [ih (gsStep rnd st c)]
    simp only [gsStep, List.length_append, List.length_cons, List.length_nil]
    omega

lemma gsRun_ONB {d : ℕ} (rnd : ℕ → Fin d → ℂ) :
    ∀ (cols : List (Fin d → ℂ)) (st : GSState d), ONBl st.basis →
      ResidHyp rnd st cols → ONBl (gsRunFrom rnd st cols).basis := by
  intro cols
  induction cols with
  | nil => intro st h _; exact h
  | cons c cs ih =>
    intro st h hres
    obtain ⟨hr, hres'⟩ := hres
    refine ih (gsStep rnd st c) ?_ hres'
    show ONBl (st.basis ++ [normalizeV (gsResid rnd st c).1])
    obtain ⟨w, hw⟩ := gsResid_proj rnd st c
    refine ONBl_append st.basis _ h (cinner_normalizeV_self _ hr) ?_
    intro b hb
    have horth : cinner b ((gsResid rnd st c).1) = 0 := by
      rw [hw]
      exact projectOut_orth st.basis h w b hb
    constructor
    · rw [cinner_normalizeV_right, horth, zero_div]
    · rw [← cinner_conj_symm, cinner_normalizeV_right, horth, zero_div, map_zero]

/-- C3: for every square complex input matrix (any list of `d` columns,
including rank-deficient ones and zero columns) and every random stream whose
draws keep the to-be-normalized residuals nonzero (`ResidHyp`; automatic for
every column on which no fallback fires, and a probability-1 event for the
fallback draws), the matrix returned by `gram_schmidt` is `d × d` with
pairwise orthonormal columns: `U†U = I` exactly, entrywise. -/
theorem gram_schmidt_unitary (d : ℕ) (cols : List (Fin d → ℂ))
    (rnd : ℕ → Fin d → ℂ) (hsq : cols.length = d)
    (hres : ResidHyp rnd ⟨[], 0⟩ cols) :
    (gram_schmidt rnd cols).length = d ∧
      ∀ i j (hi : i < (gram_schmidt rnd cols).length)
        (hj : j < (gram_schmidt rnd cols).length),
        cinner ((gram_schmidt rnd cols).get ⟨i, hi⟩)
            ((gram_schmidt rnd cols).get ⟨j, hj⟩) =
          if i = j then 1 else 0 := by
  constructor
  · rw [gram_schmidt, gsRunFrom_basis_length]
    simpa using hsq
  · exact ONBl_get _ (gsRun_ONB rnd cols ⟨[], 0⟩ trivial hres)

lemma not_isZeroish_wcol : ¬ isZeroish wcol := by
  intro h
  have h0 := h 0
  rw [wcol] at h0
  simp only [map_one] at h0
  rw [eps8] at h0
  norm_num at h0

lemma wcol_ne_zero : wcol ≠ 0 := by
  intro h
  have h0 := congrFun h 0
  simp [wcol] at h0

lemma cnorm_wcol : cnorm wcol = 1 := by
  rw [cnorm, sqnormV]
  simp [wcol, Complex.normSq_one, Real.sqrt_one]

lemma gsDraw_wcol : gsDraw wrnd ⟨[], 0⟩ wcol = (wcol, 0) := by
  unfold gsDraw
  rw [if_neg not_isZeroish_wcol]

lemma gsResid_wcol : gsResid wrnd ⟨[], 0⟩ wcol = (wcol, 0) := by
  have h1 : ¬ (1 : ℝ) < eps12 := by rw [eps12]; norm_num
  simp [gsResid, gsDraw_wcol, projectOut, cnorm_wcol, h1]

/-- Witness for C3: the `1 × 1` matrix `[[1]]`, on which no fallback fires. -/
theorem gram_schmidt_unitary_witness :
    ([wcol].length = 1 ∧ ResidHyp wrnd ⟨[], 0⟩ [wcol]) ∧
      (gram_schmidt wrnd [wcol]).length = 1 := by
  have hres : ResidHyp wrnd ⟨[], 0⟩ [wcol] := by
    refine ⟨?_, trivial⟩
    rw [gsResid_wcol]
    exact wcol_ne_zero
  exact ⟨⟨rfl, hres⟩, (gram_schmidt_unitary 1 [wcol] wrnd rfl hres).1⟩

lemma gsStep_no_fallback {d : ℕ} (rnd : ℕ → Fin d → ℂ) (st : GSState d)
    (col : Fin d → ℂ) (h1 : ¬ isZeroish col)
    (h2 : ¬ cnorm (projectOut st.basis col) < eps12) :
    gsStep rnd st col = ⟨st.basis ++ [normalizeV (projectOut st.basis col)], st.k⟩ := by
  have hd : gsDraw rnd st col = (col, st.k) := by
    unfold gsDraw
    rw [if_neg h1]
  simp [gsStep, gsResid, hd, h2]

lemma gsStep_retry {d : ℕ} (rnd : ℕ → Fin d → ℂ) (st : GSState d)
    (col : Fin d → ℂ) (h1 : ¬ isZeroish col)
    (h2 : cnorm (projectOut st.basis col) < eps12) :
    gsStep rnd st col =
      ⟨st.basis ++ [normalizeV (projectOut st.basis (rnd st.k))], st.k + 1⟩ := by
  have hd : gsDraw rnd st col = (col, st.k) := by
    unfold gsDraw
    rw [if_neg h1]
  simp [gsStep, gsResid, hd, h2]

lemma gsStep_zeroish_congr {d : ℕ} (rnd : ℕ → Fin d → ℂ) (st : GSState d)
    (col col2 : Fin d → ℂ) (h : isZeroish col) (h2 : isZeroish col2) :
    gsStep rnd st col = gsStep rnd st col2 := by
  have hd : gsDraw rnd st col = (rnd st.k, st.k + 1) := by
    unfold gsDraw
    rw [if_pos h]
  have hd2 : gsDraw rnd st col2 = (rnd st.k, st.k + 1) := by
    unfold gsDraw
    rw [if_pos h2]
  simp [gsStep, gsResid, hd, hd2]

/-- C6 (amended): branch behaviour of one Gram-Schmidt column step.  A column
is treated as zero (its actual content entirely discarded in favour of a
random draw) exactly when `np.allclose(column, 0)` holds — every entry within
absolute tolerance `1e-8` (the NumPy default; not `1e-12`); the
random-retry fires exactly when the post-projection residual norm falls below
`1e-12` (this part as the claim states); when neither tolerance triggers, the
step consumes no randomness at all and appends the normalized projected
column. -/
theorem gs_branch_tolerances (d : ℕ) (st : GSState d)
    (rnd rnd2 : ℕ → Fin d → ℂ) (col col2 : Fin d → ℂ) :
    (¬ isZeroish col → ¬ cnorm (projectOut st.basis col) < eps12 →
      gsStep rnd st col =
          ⟨st.basis ++ [normalizeV (projectOut st.basis col)], st.k⟩ ∧
        gsStep rnd st col = gsStep rnd2 st col) ∧
    (¬ isZeroish col → cnorm (projectOut st.basis col) < eps12 →
      gsStep rnd st col =
        ⟨st.basis ++ [normalizeV (projectOut st.basis (rnd st.k))], st.k + 1⟩) ∧
    (isZeroish col → isZeroish col2 → gsStep rnd st col = gsStep rnd st col2) := by
  refine ⟨fun h1 h2 => ⟨gsStep_no_fallback rnd st col h1 h2, ?_⟩,
    fun h1 h2 => gsStep_retry rnd st col h1 h2,
    fun h h2 => gsStep_zeroish_congr rnd st col col2 h h2⟩
  rw [gsStep_no_fallback rnd st col h1 h2, gsStep_no_fallback rnd2 st col h1 h2]

/-- Witness for C6 (amended): on the column `[1]` with empty basis neither
tolerance triggers, and the step is independent of the random stream. -/
theorem gs_branch_tolerances_witness :
    (¬ isZeroish wcol ∧ ¬ cnorm (projectOut ([] : List (Fin 1 → ℂ)) wcol) < eps12) ∧
      gsStep wrnd ⟨[], 0⟩ wcol = gsStep wrnd2 ⟨[], 0⟩ wcol := by
  have h1 := not_isZeroish_wcol
  have h2 : ¬ cnorm (projectOut ([] : List (Fin 1 → ℂ)) wcol) < eps12 := by
    simp only [projectOut]
    rw [cnorm_wcol, eps12]
    norm_num
  exact ⟨⟨h1, h2⟩, ((gs_branch_tolerances 1 ⟨[], 0⟩ wrnd wrnd2 wcol wcol).1 h1 h2).2⟩

/-- C6 counterexample: the column with single entry `1e-10` is treated as the
zero vector by the code (its content is discarded exactly as for the zero
column, since `np.allclose` uses absolute tolerance `1e-8`), although it is
NOT zero within the claimed `1e-12` absolute tolerance. -/
theorem zero_check_tolerance_cex :
    isZeroish tinyCol ∧ ¬ (∀ i, Complex.abs (tinyCol i) ≤ 1 / 10 ^ 12) ∧
      gsStep wrnd ⟨[], 0⟩ tinyCol = gsStep wrnd ⟨[], 0⟩ (0 : Fin 1 → ℂ) := by
  have hz : isZeroish tinyCol := by
    intro i
    rw [tinyCol, Complex.abs_ofReal, abs_of_nonneg (by norm_num), eps8]
    norm_num
  have hz0 : isZeroish (0 : Fin 1 → ℂ) := by
    intro i
    simp [eps8]
  refine ⟨hz, ?_, gsStep_zeroish_congr wrnd ⟨[], 0⟩ tinyCol 0 hz hz0⟩
  intro h
  have h0 := h 0
  rw [tinyCol, Complex.abs_ofReal, abs_of_nonneg (by norm_num)] at h0
  norm_num at h0

lemma gsMatRun_getD {d : ℕ} (rnd : ℕ → Fin d → ℂ) :
    ∀ (cols : List (Fin d → ℂ)) (st : GSState d) (j : ℕ), j < cols.length →
      (gsMatRun rnd st cols).getD j 0 =
        gsMatCol (gsRunFrom rnd st (cols.take j)) (cols.getD j 0) := by
  intro cols
  induction cols with
  | nil => intro st j hj; simp at hj
  | cons c cs ih =>
    intro st j hj
    match j with
    | 0 => simp [gsMatRun, gsRunFrom]
    | j + 1 =>
      simp only [gsMatRun, List.getD_cons_succ, List.take_succ_cons, gsRunFrom]
      exact ih (gsStep rnd st c) j (by simpa using hj)

/-- C9 counterexample: on the `1 × 1` input matrix `[[1]]` the (unique,
non-replaced) column is left EXACTLY equal to its original value after the
call — the projection loop subtracts nothing for the first column — so
"the input matrix's columns no longer equal their original values" fails. -/
theorem gs_input_unchanged_cex :
    ¬ isZeroish wcol ∧ gsMatrix wrnd [wcol] = [wcol] := by
  refine ⟨not_isZeroish_wcol, ?_⟩
  simp [gsMatrix, gsMatRun, gsMatCol, not_isZeroish_wcol, projectOut]

/-- C9 (amended): `gram_schmidt` mutates its input in place through the
NumPy column views: every column not replaced by the zero-column fallback is
overwritten with its projected residual — it changes by an element of the
span of the previously produced output columns, and is left unchanged
exactly when all those projections vanish (e.g. the first column, or any
column orthogonal to the earlier output columns). -/
theorem gs_mutation_characterization (d : ℕ) (rnd : ℕ → Fin d → ℂ)
    (cols : List (Fin d → ℂ)) (j : ℕ) (hj : j < cols.length)
    (hz : ¬ isZeroish (cols.getD j 0)) :
    ((gsMatrix rnd cols).getD j 0 - cols.getD j 0 ∈
      Submodule.span ℂ {x | x ∈ (gsRunFrom rnd ⟨[], 0⟩ (cols.take j)).basis}) ∧
    ((∀ b ∈ (gsRunFrom rnd ⟨[], 0⟩ (cols.take j)).basis,
        cinner b (cols.getD j 0) = 0) →
      (gsMatrix rnd cols).getD j 0 = cols.getD j 0) := by
  have hrw : (gsMatrix rnd cols).getD j 0 =
      gsMatCol (gsRunFrom rnd ⟨[], 0⟩ (cols.take j)) (cols.getD j 0) :=
    gsMatRun_getD rnd cols ⟨[], 0⟩ j hj
  rw [hrw]
  unfold gsMatCol
  rw [if_neg hz]
  constructor
  · exact projectOut_sub_mem_span _ _
  · intro hb
    exact projectOut_of_orth _ _ hb

/-- Witness for C9 (amended) on the `1 × 1` matrix `[[1]]`. -/
theorem gs_mutation_characterization_witness :
    (0 < [wcol].length ∧ ¬ isZeroish ([wcol].getD 0 0)) ∧
      (gsMatrix wrnd [wcol]).getD 0 0 = [wcol].getD 0 0 := by
  have hz : ¬ isZeroish ([wcol].getD 0 0) := by
    simpa using not_isZeroish_wcol
  refine ⟨⟨by norm_num, hz⟩, ?_⟩
  refine (gs_mutation_characterization 1 wrnd [wcol] 0 (by norm_num) hz).2 ?_
  intro b hb
  simp [gsRunFrom] at hb

end UCC
